import Mathlib

/-!
Verification of the FaceFix rewrite engine and file-selection policy.

Shallow embedding of `FaceFixV0.7.9.py` (the variant whose `smart_replace`
signature `(file_path, make_backup, preview, apply_changes, process_disabled)`
matches the specified engine contract).  Strings are modelled as `List Char`;
file contents are the exact character sequences.  Python's Unicode-aware
character classes `\w` and `\d` are modelled over their ASCII subsets
(`Char.isAlphanum`/`Char.isDigit`); `\s` and `str.splitlines` use the full
Python character sets.  Console printing is out of scope; file effects are
modelled explicitly in an `Outcome` record, and the per-file `try/except` is
modelled by an I/O oracle saying which of the read / backup-copy / write
operations raises.
-/

namespace FaceFix

/-- ASCII lowering, as done by `str.lower()` / `re.IGNORECASE` on ASCII data. -/
def lowerChar (c : Char) : Char :=
  if 'A' ≤ c ∧ c ≤ 'Z' then Char.ofNat (c.toNat + 32) else c

/-- Python's `\s` / `str.isspace` character set. -/
def isSpace (c : Char) : Bool :=
  c == ' ' || c == '\t' || c == '\n' || c == '\r' || c == '\x0b' || c == '\x0c' ||
  c == '\x1c' || c == '\x1d' || c == '\x1e' || c == '\x1f' || c == '\u0085' ||
  c == ' ' || c == ' ' || (' ' ≤ c && c ≤ ' ') ||
  c == ' ' || c == ' ' || c == ' ' || c == ' ' || c == '　'

/-- The line-boundary characters of Python's `str.splitlines`. -/
def isLB (c : Char) : Bool :=
  c == '\n' || c == '\r' || c == '\x0b' || c == '\x0c' ||
  c == '\x1c' || c == '\x1d' || c == '\x1e' ||
  c == '\u0085' || c == ' ' || c == ' '

/-- Python's `\w` (ASCII subset): alphanumeric or underscore. -/
def isWordChar (c : Char) : Bool :=
  c.isAlphanum || c == '_'

/-- `[.\w]`. -/
def wordDot (c : Char) : Bool :=
  isWordChar c || c == '.'

/-- Drop a literal pattern from the front of a string, case-insensitively
(`re.IGNORECASE` matching of a literal).  Returns the remainder on success. -/
def dropCI : List Char → List Char → Option (List Char)
  | [], cs => some cs
  | _ :: _, [] => none
  | p :: ps, c :: cs => if lowerChar p = lowerChar c then dropCI ps cs else none

/-- `(?:Diffuse|NormalMap)(?:[.\w]*)?` matched against the whole remainder. -/
def suffixTail (cs : List Char) : Bool :=
  (match dropCI ("Diffuse".toList) cs with
   | some rest => rest.all wordDot
   | none => false) ||
  (match dropCI ("NormalMap".toList) cs with
   | some rest => rest.all wordDot
   | none => false)

/-- `\w*(?:Diffuse|NormalMap)(?:[.\w]*)?` matched against the whole remainder
(the part of the capture group after the literal `Face`). -/
def faceTail : List Char → Bool
  | [] => suffixTail []
  | c :: rest => suffixTail (c :: rest) || (isWordChar c && faceTail rest)

/-- `\w*Face\w*(?:Diffuse|NormalMap)(?:[.\w]*)?` matched against the whole
remainder (the part of the capture group after the literal `Resource`). -/
def resourceTail : List Char → Bool
  | [] =>
    (match dropCI ("Face".toList) [] with
     | some rest => faceTail rest
     | none => false)
  | c :: rest =>
    (match dropCI ("Face".toList) (c :: rest) with
     | some rest2 => faceTail rest2
     | none => false) ||
    (isWordChar c && resourceTail rest)

/-- The capture group `Resource\w*Face\w*(?:Diffuse|NormalMap)(?:[.\w]*)?`,
matched case-insensitively against the whole candidate right-hand side. -/
def rhsMatches (cs : List Char) : Bool :=
  match dropCI ("Resource".toList) cs with
  | some rest => resourceTail rest
  | none => false

/-- `line.rstrip("\n")`: remove trailing newline characters. -/
def rstripNl (l : List Char) : List Char :=
  (l.reverse.dropWhile (fun c => c == '\n')).reverse

/--
The anchored match of
`^\s*ps-t\d+\s*=\s*(Resource\w*Face\w*(?:Diffuse|NormalMap)(?:[.\w]*)?)\s*$`
(with `re.IGNORECASE`) against a newline-stripped line, returning the capture
group.  Each greedy sub-match is forced because adjacent character classes are
disjoint, so the regex is realised as a deterministic scan; the backtracking
inside the capture group lives in `rhsMatches`.
-/
def lineMatch (stripped : List Char) : Option (List Char) :=
  match dropCI ("ps-t".toList) (stripped.dropWhile isSpace) with
  | none => none
  | some rest2 =>
    if (rest2.takeWhile Char.isDigit).isEmpty then none
    else
      match (rest2.dropWhile Char.isDigit).dropWhile isSpace with
      | '=' :: rest5 =>
        if rhsMatches (((rest5.dropWhile isSpace)).takeWhile (fun c => !(isSpace c))) &&
            (((rest5.dropWhile isSpace)).dropWhile (fun c => !(isSpace c))).all isSpace then
          some (((rest5.dropWhile isSpace)).takeWhile (fun c => !(isSpace c)))
        else none
      | _ => none

/-- The rewritten form of one line: a matched line becomes
`indent ++ "this = " ++ rhs ++ "\n"`, any other line is kept unchanged. -/
def rwLine (line : List Char) : List Char :=
  match lineMatch (rstripNl line) with
  | some rhs => line.takeWhile isSpace ++ ("this = ".toList ++ (rhs ++ ['\n']))
  | none => line

/-- One iteration of the scan loop: the output line together with the
optional `(idx, old-stripped, new-stripped)` entry of `changed_lines`. -/
def scanStep (idx : Nat) (line : List Char) :
    List Char × Option (Nat × List Char × List Char) :=
  match lineMatch (rstripNl line) with
  | some _ => (rwLine line, some (idx, rstripNl line, rstripNl (rwLine line)))
  | none => (line, none)

/-- The scan loop over all lines (`enumerate(lines, 1)` starts `idx` at 1):
returns `(new_lines, changed_lines)`. -/
def scanLines (idx : Nat) : List (List Char) → List (List Char) × List (Nat × List Char × List Char)
  | [] => ([], [])
  | l :: ls =>
    let s := scanStep idx l
    let r := scanLines (idx + 1) ls
    (s.1 :: r.1, match s.2 with
      | some t => t :: r.2
      | none => r.2)

/--
`content.splitlines(True)` (keepends).  `acc` holds the reversed characters of
the current line body; `sawCR` records a pending `'\r'` whose pairing with a
following `'\n'` is not yet decided.
-/
def splitAux (acc : List Char) (sawCR : Bool) : List Char → List (List Char)
  | [] =>
    if sawCR then [acc.reverse ++ ['\r']]
    else if acc.isEmpty then [] else [acc.reverse]
  | c :: rest =>
    if sawCR then
      if c = '\n' then (acc.reverse ++ ['\r', '\n']) :: splitAux [] false rest
      else if c = '\r' then (acc.reverse ++ ['\r']) :: splitAux [] true rest
      else if isLB c then (acc.reverse ++ ['\r']) :: [c] :: splitAux [] false rest
      else (acc.reverse ++ ['\r']) :: splitAux [c] false rest
    else
      if c = '\r' then splitAux acc true rest
      else if isLB c then (acc.reverse ++ [c]) :: splitAux [] false rest
      else splitAux (c :: acc) false rest

/-- `content.splitlines(True)`. -/
def splitlinesKeepends (content : List Char) : List (List Char) :=
  splitAux [] false content

/-- Case-sensitive prefix test on character lists. -/
def leadsWith : List Char → List Char → Bool
  | [], _ => true
  | _ :: _, [] => false
  | a :: as, b :: bs => a == b && leadsWith as bs

/-- Python's substring test `needle in hay`. -/
def containsSub (needle : List Char) : List Char → Bool
  | [] => leadsWith needle []
  | c :: rest => leadsWith needle (c :: rest) || containsSub needle rest

/-- The flag arguments of `smart_replace`. -/
structure Flags where
  make_backup : Bool
  preview : Bool
  apply_changes : Bool
  process_disabled : Bool
deriving DecidableEq

/-- Which of the file operations inside `smart_replace` raises an exception
(read at line 44, `shutil.copyfile` at line 86, write at line 89). -/
structure IOOracle where
  readErr : Bool
  backupErr : Bool
  writeErr : Bool
deriving DecidableEq

/-- The oracle of a run in which no file operation fails. -/
def noErr : IOOracle := ⟨false, false, false⟩

/-- The observable result of one `smart_replace` call: the returned pair
`(changed, changed_lines)`, the content of the target file and of its backup
file after the call, and whether the `except` handler printed a diagnostic. -/
structure Outcome where
  changed : Bool
  changed_lines : List (Nat × List Char × List Char)
  fileContent : List Char
  backupFile : Option (List Char)
  diagnostic : Bool
deriving DecidableEq

/--
The body of `smart_replace` (the `try` block), lines 44–92 of
`FaceFixV0.7.9.py`.  `content` is the target file's current content,
`priorBackup` the backup file's content before the call.  A raised exception
is an `Except.error` carrying the file / backup state at the raise point.
-/
def smartReplaceBody (io : IOOracle) (content : List Char)
    (priorBackup : Option (List Char)) (fl : Flags) :
    Except (List Char × Option (List Char)) Outcome :=
  if io.readErr then .error (content, priorBackup)
  else if containsSub ("DISABLED".toList) content && !fl.process_disabled then
    .ok ⟨false, [], content, priorBackup, false⟩
  else
    let scanned := scanLines 1 (splitlinesKeepends content)
    if scanned.2.isEmpty then .ok ⟨false, [], content, priorBackup, false⟩
    else
      -- the `preview` branch only prints; it has no file effect
      if fl.apply_changes then
        if fl.make_backup then
          if io.backupErr then .error (content, priorBackup)
          else if io.writeErr then .error (content, some content)
          else .ok ⟨true, scanned.2, scanned.1.flatten, some content, false⟩
        else if io.writeErr then .error (content, priorBackup)
        else .ok ⟨true, scanned.2, scanned.1.flatten, priorBackup, false⟩
      else .ok ⟨true, scanned.2, content, priorBackup, false⟩

/-- `smart_replace`: the body under its `try/except`.  Any exception is caught
per file, a one-line diagnostic is printed, and `(False, [])` is returned. -/
def smart_replace (io : IOOracle) (content : List Char)
    (priorBackup : Option (List Char)) (fl : Flags) : Outcome :=
  match smartReplaceBody io content priorBackup fl with
  | .error e => ⟨false, [], e.1, e.2, true⟩
  | .ok o => o

/-- Split a path at its basename: `(head including the final separator,
basename)`, as `os.path` does with `/` separators. -/
def splitPath (p : List Char) : List Char × List Char :=
  let baseRev := p.reverse.takeWhile (fun c => !(c == '/'))
  (p.take (p.length - baseRev.length), baseRev.reverse)

/-- `os.path.splitext` on a basename: split off the extension at the last
dot, unless every character before that dot is itself a dot. -/
def splitextBase (base : List Char) : List Char × List Char :=
  let revb := base.reverse
  let aRev := revb.takeWhile (fun c => !(c == '.'))
  match revb.dropWhile (fun c => !(c == '.')) with
  | [] => (base, [])
  | _ :: bRev =>
    if bRev.reverse.any (fun c => !(c == '.')) then
      (bRev.reverse, '.' :: aRev.reverse)
    else (base, [])

/-- `os.path.splitext` (posix separators). -/
def splitext (p : List Char) : List Char × List Char :=
  let d := splitPath p
  let b := splitextBase d.2
  (d.1 ++ b.1, b.2)

/-- `f"\x7bos.path.splitext(file_path)[0]\x7d_backup.bak"`. -/
def backup_path (p : List Char) : List Char :=
  (splitext p).1 ++ ("_backup.bak".toList)

/-- `is_disabled_file`: the basename (lowered) is checked for `disabled`;
only if that fails is the file read and its content checked for `DISABLED`;
a read failure makes the function return `False`. -/
def is_disabled_file (path : List Char) (readRes : Except Unit (List Char)) : Bool :=
  if containsSub ("disabled".toList) (((splitPath path).2).map lowerChar) then true
  else
    match readRes with
    | .ok content => containsSub ("DISABLED".toList) content
    | .error _ => false

/-- A directory entry seen by the candidate collection loop of `main`:
a filename together with the file's content. -/
structure FileEntry where
  name : List Char
  content : List Char
deriving DecidableEq

/-- Case-sensitive suffix test on character lists. -/
def trailsWith (needle hay : List Char) : Bool :=
  leadsWith needle.reverse hay.reverse

/-- The per-directory candidate filter of `main` (lines 157–161):
keep `f` when `f.lower().endswith(".ini")` and the file is not disabled
(or disabled processing was requested). -/
def selectFiles (process_disabled : Bool) (entries : List FileEntry) : List FileEntry :=
  entries.filter (fun e =>
    trailsWith (".ini".toList) (e.name.map lowerChar) &&
      (!(is_disabled_file e.name (.ok e.content)) || process_disabled))

/-- Python's `str.strip('*')`: remove leading and trailing `*` characters. -/
def stripStar (p : List Char) : List Char :=
  ((p.dropWhile (fun c => c == '*')).reverse.dropWhile (fun c => c == '*')).reverse

/-- `path.replace('\\', '/').lower()`. -/
def normalizePath (p : List Char) : List Char :=
  (p.map (fun c => if c == '\\' then '/' else c)).map lowerChar

/-- `should_exclude`: some pattern, stripped of its `*`s and lowered, occurs
as a substring of the normalized, lowered path. -/
def should_exclude (path : List Char) (patterns : List (List Char)) : Bool :=
  patterns.any (fun p => containsSub ((stripStar p).map lowerChar) (normalizePath path))

/-- `get_exclusion_patterns`, modelled over the finite list of folder names
the user enters before the empty line: the backup pattern `*_backup.bak` is
always first, and each entered name `n` contributes the pattern `*n*`. -/
def get_exclusion_patterns (names : List (List Char)) : List (List Char) :=
  ("*_backup.bak".toList) :: names.map (fun n => '*' :: (n ++ ['*']))

/-! ### Generic list helpers -/

theorem dropCI_sub : ∀ (pat cs rest : List Char), dropCI pat cs = some rest →
    ∃ pre, cs = pre ++ rest := by
  intro pat
  induction pat with
  | nil =>
    intro cs rest h
    simp only [dropCI, Option.some.injEq] at h
    exact ⟨[], by simp [h]⟩
  | cons p ps ih =>
    intro cs rest h
    cases cs with
    | nil => simp [dropCI] at h
    | cons c cs' =>
      by_cases hc : lowerChar p = lowerChar c
      · simp only [dropCI, if_pos hc] at h
        obtain ⟨pre, hpre⟩ := ih cs' rest h
        exact ⟨c :: pre, by simp [hpre]⟩
      · simp [dropCI, if_neg hc] at h

theorem takeWhile_all {α : Type} (p : α → Bool) (l : List α) :
    (l.takeWhile p).all p = true := by
  induction l with
  | nil => rfl
  | cons c l' ih =>
    rw [List.takeWhile_cons]
    by_cases hc : p c = true
    · simp [hc, ih]
    · simp [hc]

theorem dropWhile_append_all {α : Type} {p : α → Bool} {l₁ l₂ : List α}
    (h : l₁.all p = true) : (l₁ ++ l₂).dropWhile p = l₂.dropWhile p := by
  induction l₁ with
  | nil => rfl
  | cons c l' ih =>
    simp only [List.all_cons, Bool.and_eq_true] at h
    simpa [List.dropWhile_cons, h.1] using ih h.2

theorem takeWhile_append_fst {α : Type} {p : α → Bool} {l t : List α}
    (h : l.dropWhile p ≠ []) : (l ++ t).takeWhile p = l.takeWhile p := by
  induction l with
  | nil => simp [List.dropWhile] at h
  | cons c l' ih =>
    by_cases hc : p c = true
    · rw [List.dropWhile_cons, if_pos hc] at h
      simp [List.takeWhile_cons, hc, ih h]
    · simp [List.takeWhile_cons, hc]

theorem dropWhile_append_fst {α : Type} {p : α → Bool} {l t : List α}
    (h : l.dropWhile p ≠ []) : (l ++ t).dropWhile p = l.dropWhile p ++ t := by
  induction l with
  | nil => simp [List.dropWhile] at h
  | cons c l' ih =>
    by_cases hc : p c = true
    · rw [List.dropWhile_cons, if_pos hc] at h
      simp [List.dropWhile_cons, hc, ih h]
    · simp [List.dropWhile_cons, hc]

/-! ### `rstripNl` facts -/

theorem rstrip_decomp (l : List Char) :
    ∃ t, l = rstripNl l ++ t ∧ t.all (fun c => c == '\n') = true := by
  refine ⟨(l.reverse.takeWhile (fun c => c == '\n')).reverse, ?_, ?_⟩
  · have h2 : rstripNl l ++ (l.reverse.takeWhile (fun c => c == '\n')).reverse
        = ((l.reverse.takeWhile (fun c => c == '\n')) ++
            (l.reverse.dropWhile (fun c => c == '\n'))).reverse := by
      rw [List.reverse_append]; rfl
    rw [h2, List.takeWhile_append_dropWhile, List.reverse_reverse]
  · rw [List.all_eq_true]
    intro c hc
    rw [List.mem_reverse] at hc
    exact List.all_eq_true.mp (takeWhile_all _ l.reverse) c hc

theorem rstrip_append_nl (b : List Char) : rstripNl (b ++ ['\n']) = rstripNl b := by
  simp [rstripNl, List.reverse_append, List.dropWhile_cons]

/-! ### Facts about a successful `lineMatch` -/

theorem lineMatch_some_facts {s rhs : List Char} (h : lineMatch s = some rhs) :
    rhs ≠ [] ∧ rhs.all (fun c => !(isSpace c)) = true ∧
    (∃ c r, s.dropWhile isSpace = c :: r ∧ lowerChar c = 'p') ∧
    ∃ pre suf, s = pre ++ (rhs ++ suf) ∧ suf.all isSpace = true := by
  unfold lineMatch at h
  split at h
  · exact absurd h (by simp)
  next rest2 heq =>
    split at h
    · exact absurd h (by simp)
    next hds =>
      split at h
      next rest5 heq4 =>
        split at h
        next hguard =>
          rw [Option.some.injEq] at h
          rw [Bool.and_eq_true] at hguard
          subst h
          refine ⟨?_, takeWhile_all _ _, ?_, ?_⟩
          · intro hnil
            rw [hnil] at hguard
            exact absurd hguard.1 (by decide)
          · rw [show ("ps-t".toList) = ['p', 's', '-', 't'] from rfl] at heq
            cases hdw : s.dropWhile isSpace with
            | nil => rw [hdw] at heq; simp [dropCI] at heq
            | cons c r =>
              rw [hdw] at heq
              by_cases hc : lowerChar 'p' = lowerChar c
              · exact ⟨c, r, rfl, by rw [← hc]; rfl⟩
              · simp [dropCI, if_neg hc] at heq
          · obtain ⟨pre1, hpre1⟩ := dropCI_sub _ _ _ heq
            refine ⟨s.takeWhile isSpace ++ (pre1 ++ ((rest2.takeWhile Char.isDigit) ++
              (((rest2.dropWhile Char.isDigit).takeWhile isSpace) ++
                ('=' :: rest5.takeWhile isSpace)))),
              (rest5.dropWhile isSpace).dropWhile (fun c => !(isSpace c)), ?_, hguard.2⟩
            have key : s.takeWhile isSpace ++ (pre1 ++ ((rest2.takeWhile Char.isDigit) ++
                (((rest2.dropWhile Char.isDigit).takeWhile isSpace) ++
                  ('=' :: (rest5.takeWhile isSpace ++
                    ((rest5.dropWhile isSpace).takeWhile (fun c => !(isSpace c)) ++
                      (rest5.dropWhile isSpace).dropWhile (fun c => !(isSpace c)))))))) = s := by
              rw [List.takeWhile_append_dropWhile (fun c => !(isSpace c)),
                List.takeWhile_append_dropWhile isSpace rest5, ← heq4,
                List.takeWhile_append_dropWhile, List.takeWhile_append_dropWhile,
                ← hpre1, List.takeWhile_append_dropWhile]
            conv_lhs => rw [← key]
            simp [List.append_assoc]
        · exact absurd h (by simp)
      · exact absurd h (by simp)

theorem rstrip_eq_self {l : List Char} {c : Char} (h : l.reverse.head? = some c)
    (hc : (c == '\n') = false) : rstripNl l = l := by
  cases hrev : l.reverse with
  | nil => rw [hrev] at h; simp at h
  | cons d r =>
    rw [hrev] at h
    simp only [List.head?_cons, Option.some.injEq] at h
    subst h
    rw [rstripNl, hrev, List.dropWhile_cons, if_neg (by simp [hc]), ← hrev,
      List.reverse_reverse]

/-! ### Character-class facts -/

theorem isLB_elim {c : Char} (h : isLB c = true) :
    c = '\n' ∨ c = '\r' ∨ c = '\x0b' ∨ c = '\x0c' ∨ c = '\x1c' ∨ c = '\x1d' ∨
      c = '\x1e' ∨ c = '\u0085' ∨ c = ' ' ∨ c = ' ' := by
  simp only [isLB, Bool.or_eq_true, beq_iff_eq] at h
  tauto

theorem isLB_isSpace {c : Char} (h : isLB c = true) : isSpace c = true := by
  rcases isLB_elim h with rfl | rfl | rfl | rfl | rfl | rfl | rfl | rfl | rfl | rfl <;> decide

theorem isLB_false_of_lower_p {c : Char} (h : lowerChar c = 'p') : isLB c = false := by
  cases hlb : isLB c
  · rfl
  · rcases isLB_elim hlb with rfl | rfl | rfl | rfl | rfl | rfl | rfl | rfl | rfl | rfl <;>
      exact absurd h (by decide)

theorem isLB_false_of_not_space {c : Char} (h : isSpace c = false) : isLB c = false := by
  cases hlb : isLB c
  · rfl
  · exact absurd (isLB_isSpace hlb) (by simp [h])

/-! ### Line shapes: the invariant satisfied by `splitlines(True)` output -/

/-- A valid keepends line terminator. -/
def Terminator (t : List Char) : Prop :=
  t = ['\r', '\n'] ∨ ∃ c, isLB c = true ∧ t = [c]

/-- A terminated line: a boundary-free body followed by a terminator. -/
def TermLine (l : List Char) : Prop :=
  ∃ b t, l = b ++ t ∧ (∀ x ∈ b, isLB x = false) ∧ Terminator t

/-- A line allowed in final position: terminated, or boundary-free and
nonempty. -/
def LastLine (l : List Char) : Prop :=
  TermLine l ∨ ((∀ x ∈ l, isLB x = false) ∧ l ≠ [])

/-- Well-formedness of a keepends line list: every line but the last is
terminated, the last is a `LastLine`, and a line ending in a lone `'\r'` is
never followed by a line starting with `'\n'`. -/
def WF : List (List Char) → Prop
  | [] => True
  | [l] => LastLine l
  | l₁ :: l₂ :: rest =>
    TermLine l₁ ∧ ¬(l₁.getLast? = some '\r' ∧ l₂.head? = some '\n') ∧ WF (l₂ :: rest)

theorem terminator_ne_nil {t : List Char} (h : Terminator t) : t ≠ [] := by
  rcases h with rfl | ⟨c, -, rfl⟩ <;> simp

theorem terminator_all_lb {t : List Char} (h : Terminator t) :
    ∀ x ∈ t, isLB x = true := by
  rcases h with rfl | ⟨c, hc, rfl⟩
  · intro x hx
    rcases List.mem_cons.mp hx with rfl | hx
    · decide
    · rcases List.mem_cons.mp hx with rfl | hx
      · decide
      · simp at hx
  · intro x hx
    rcases List.mem_cons.mp hx with rfl | hx
    · exact hc
    · simp at hx

theorem termline_ne_nil {l : List Char} (h : TermLine l) : l ≠ [] := by
  obtain ⟨b, t, rfl, -, ht⟩ := h
  intro hnil
  rcases List.append_eq_nil.mp hnil with ⟨-, h2⟩
  exact terminator_ne_nil ht h2

theorem lastline_ne_nil {l : List Char} (h : LastLine l) : l ≠ [] := by
  rcases h with h | ⟨-, h⟩
  · exact termline_ne_nil h
  · exact h

/-- Within `body ++ term` (boundary-free body, all-boundary terminator),
everything before a non-boundary character is boundary-free. -/
theorem noLB_prefix {term s : List Char} {c : Char}
    (hterm : ∀ x ∈ term, isLB x = true) (hc : isLB c = false) :
    ∀ (p body : List Char), (∀ x ∈ body, isLB x = false) →
      body ++ term = p ++ c :: s → ∀ x ∈ p, isLB x = false := by
  intro p
  induction p with
  | nil => simp
  | cons a p' ih =>
    intro body hbody heq
    cases body with
    | nil =>
      exfalso
      simp only [List.nil_append] at heq
      have hcmem : c ∈ term := by rw [heq]; simp
      rw [hterm c hcmem] at hc
      exact absurd hc (by simp)
    | cons b body' =>
      simp only [List.cons_append, List.cons.injEq] at heq
      obtain ⟨rfl, heq'⟩ := heq
      intro x hx
      rcases List.mem_cons.mp hx with rfl | hx
      · exact hbody x (List.mem_cons_self _ _)
      · exact ih body' (fun y hy => hbody y (List.mem_cons_of_mem _ hy)) heq' x hx

/-- A line that `lineMatch`es decomposes as its whitespace indent followed by
the `p` of `ps-t`. -/
theorem lineMatch_line_decomp {line rhs : List Char}
    (h : lineMatch (rstripNl line) = some rhs) :
    ∃ c r, lowerChar c = 'p' ∧ line = line.takeWhile isSpace ++ (c :: r) := by
  obtain ⟨t, hdecomp, ht⟩ := rstrip_decomp line
  obtain ⟨-, -, ⟨c, r, hdw, hc⟩, -⟩ := lineMatch_some_facts h
  have hne : (rstripNl line).dropWhile isSpace ≠ [] := by rw [hdw]; simp
  have h2 : line.dropWhile isSpace = (c :: r) ++ t := by
    conv_lhs => rw [hdecomp]
    rw [dropWhile_append_fst hne, hdw]
  refine ⟨c, r ++ t, hc, ?_⟩
  conv_lhs => rw [← List.takeWhile_append_dropWhile isSpace line]
  rw [h2]
  simp

/-- The indent of a matching line contains no line-boundary character,
provided the line has the shape of a `splitlines(True)` element. -/
theorem indent_noLB {line rhs : List Char}
    (hm : lineMatch (rstripNl line) = some rhs) (hl : LastLine line) :
    ∀ x ∈ line.takeWhile isSpace, isLB x = false := by
  obtain ⟨c, r, hc, hline⟩ := lineMatch_line_decomp hm
  rcases hl with ⟨b, t, hbt, hb, hterm⟩ | ⟨hnolb, -⟩
  · exact noLB_prefix (terminator_all_lb hterm) (isLB_false_of_lower_p hc) _ b hb
      (hbt.symm.trans hline)
  · intro x hx
    exact hnolb x (List.takeWhile_prefix _ |>.subset hx)

/-! ### `splitAux` structure -/

theorem splitAux_head : ∀ (cs acc : List Char) (sawCR : Bool) (l : List Char)
    (ls : List (List Char)), splitAux acc sawCR cs = l :: ls →
    l.head? = (acc.reverse ++ (if sawCR then '\r' :: cs else cs)).head? := by
  intro cs
  induction cs with
  | nil =>
    intro acc sawCR l ls h
    cases sawCR with
    | true =>
      simp only [splitAux, if_true, List.cons.injEq] at h
      obtain ⟨rfl, -⟩ := h
      simp
    | false =>
      by_cases ha : acc.isEmpty
      · simp [splitAux, ha] at h
      · simp only [splitAux, ha, if_false, List.cons.injEq] at h
        obtain ⟨rfl, -⟩ := h
        simp
  | cons c rest ih =>
    intro acc sawCR l ls h
    cases sawCR with
    | true =>
      by_cases h1 : c = '\n'
      · subst h1
        simp only [splitAux, if_true, if_pos rfl, List.cons.injEq] at h
        obtain ⟨rfl, -⟩ := h
        simp [List.head?_append]
      · by_cases h2 : c = '\r'
        · subst h2
          simp only [splitAux, if_true, if_neg h1, if_pos rfl, List.cons.injEq] at h
          obtain ⟨rfl, -⟩ := h
          simp [List.head?_append]
        · by_cases h3 : isLB c = true
          · simp only [splitAux, if_true, if_neg h1, if_neg h2, h3, List.cons.injEq] at h
            obtain ⟨rfl, -⟩ := h
            simp [List.head?_append]
          · simp only [splitAux, if_true, if_neg h1, if_neg h2,
              Bool.not_eq_true .. |>.mpr rfl, h3, if_false, List.cons.injEq] at h
            obtain ⟨rfl, -⟩ := h
            simp [List.head?_append]
    | false =>
      by_cases h2 : c = '\r'
      · subst h2
        simp only [splitAux, if_false, if_pos rfl] at h
        have := ih acc true l ls h
        simpa using this
      · by_cases h3 : isLB c = true
        · simp only [splitAux, if_false, if_neg h2, h3, if_true, List.cons.injEq] at h
          obtain ⟨rfl, -⟩ := h
          simp [List.head?_append]
        · simp only [splitAux, if_false, if_neg h2, h3] at h
          have := ih (c :: acc) false l ls h
          simpa [List.head?_append] using this

theorem WF_cons {l₁ : List Char} {T : List (List Char)} (h₁ : TermLine l₁)
    (hch : ∀ l₂ T', T = l₂ :: T' → ¬(l₁.getLast? = some '\r' ∧ l₂.head? = some '\n'))
    (hT : WF T) : WF (l₁ :: T) := by
  cases T with
  | nil => exact Or.inl h₁
  | cons l₂ T' => exact ⟨h₁, hch l₂ T' rfl, hT⟩

theorem splitAux_WF : ∀ (cs acc : List Char) (sawCR : Bool),
    (∀ x ∈ acc, isLB x = false) → WF (splitAux acc sawCR cs) := by
  intro cs
  induction cs with
  | nil =>
    intro acc sawCR hacc
    cases sawCR with
    | true =>
      simp only [splitAux, if_true]
      exact Or.inl ⟨acc.reverse, ['\r'], rfl,
        fun x hx => hacc x (List.mem_reverse.mp hx), Or.inr ⟨'\r', by decide, rfl⟩⟩
    | false =>
      by_cases ha : acc.isEmpty
      · simp [splitAux, ha, WF]
      · simp only [splitAux, ha, if_false]
        exact Or.inr ⟨fun x hx => hacc x (List.mem_reverse.mp hx),
          by simpa [List.isEmpty_iff] using ha⟩
  | cons c rest ih =>
    intro acc sawCR hacc
    have hb : ∀ x ∈ acc.reverse, isLB x = false :=
      fun x hx => hacc x (List.mem_reverse.mp hx)
    cases sawCR with
    | true =>
      have ht₁ : TermLine (acc.reverse ++ ['\r']) :=
        ⟨acc.reverse, ['\r'], rfl, hb, Or.inr ⟨'\r', by decide, rfl⟩⟩
      by_cases h1 : c = '\n'
      · subst h1
        simp only [splitAux, if_true, if_pos rfl]
        refine WF_cons ⟨acc.reverse, ['\r', '\n'], rfl, hb, Or.inl rfl⟩ ?_ (ih [] false (by simp))
        rintro l₂ T' heq ⟨hlast, -⟩
        have : (acc.reverse ++ ['\r', '\n']).getLast? = some '\n' := by
          have e : acc.reverse ++ ['\r', '\n'] = (acc.reverse ++ ['\r']) ++ ['\n'] := by simp
          rw [e, List.getLast?_concat]
        rw [this] at hlast
        exact absurd (Option.some.injEq .. |>.mp hlast) (by decide)
      · by_cases h2 : c = '\r'
        · subst h2
          simp only [splitAux, if_true, if_neg h1, if_pos rfl]
          refine WF_cons ht₁ ?_ (ih [] true (by simp))
          rintro l₂ T' heq ⟨-, hhead⟩
          have := splitAux_head rest [] true l₂ T' heq
          rw [hhead] at this
          simp at this
        · by_cases h3 : isLB c = true
          · simp only [splitAux, if_true, if_neg h1, if_neg h2, h3, if_true]
            refine WF_cons ht₁ ?_ (WF_cons ⟨[], [c], rfl, by simp, Or.inr ⟨c, h3, rfl⟩⟩ ?_
              (ih [] false (by simp)))
            · rintro l₂ T' heq ⟨-, hhead⟩
              obtain ⟨rfl, -⟩ := List.cons.injEq .. |>.mp heq
              simp only [List.head?_cons, Option.some.injEq] at hhead
              exact h1 hhead
            · rintro l₂ T' heq ⟨hlast, -⟩
              simp only [List.getLast?_singleton, Option.some.injEq] at hlast
              exact h2 hlast
          · simp only [splitAux, if_true, if_neg h1, if_neg h2, h3, if_false]
            refine WF_cons ht₁ ?_ (ih [c] false ?_)
            · rintro l₂ T' heq ⟨-, hhead⟩
              have := splitAux_head rest [c] false l₂ T' heq
              rw [hhead] at this
              simp only [if_false, List.reverse_singleton, List.singleton_append,
                List.head?_cons, Option.some.injEq] at this
              exact h1 this.symm
            · intro x hx
              rcases List.mem_singleton.mp hx with rfl
              exact Bool.not_eq_true _ |>.mp h3
    | false =>
      by_cases h2 : c = '\r'
      · subst h2
        simp only [splitAux, if_false, if_pos rfl]
        exact ih acc true hacc
      · by_cases h3 : isLB c = true
        · simp only [splitAux, if_false, if_neg h2, h3, if_true]
          refine WF_cons ⟨acc.reverse, [c], rfl, hb, Or.inr ⟨c, h3, rfl⟩⟩ ?_
            (ih [] false (by simp))
          rintro l₂ T' heq ⟨hlast, -⟩
          rw [List.getLast?_concat] at hlast
          exact h2 (Option.some.injEq .. |>.mp hlast)
        · simp only [splitAux, if_false, if_neg h2, h3]
          refine ih (c :: acc) false ?_
          intro x hx
          rcases List.mem_cons.mp hx with rfl | hx
          · exact Bool.not_eq_true _ |>.mp h3
          · exact hacc x hx

theorem WF_head : ∀ {l : List Char} {T : List (List Char)}, WF (l :: T) → LastLine l := by
  intro l T h
  cases T with
  | nil => exact h
  | cons l₂ T' => exact Or.inl h.1

theorem WF_tail : ∀ {l : List Char} {T : List (List Char)}, WF (l :: T) → WF T := by
  intro l T h
  cases T with
  | nil => trivial
  | cons l₂ T' => exact h.2.2

theorem splitAux_body : ∀ (b : List Char), (∀ x ∈ b, isLB x = false) →
    ∀ (acc rest : List Char),
      splitAux acc false (b ++ rest) = splitAux (b.reverse ++ acc) false rest := by
  intro b
  induction b with
  | nil => intro h acc rest; simp
  | cons c b' ih =>
    intro h acc rest
    have hc : isLB c = false := h c (List.mem_cons_self _ _)
    have hcr : ¬(c = '\r') := fun hh => by rw [hh] at hc; exact absurd hc (by decide)
    rw [List.cons_append]
    have hstep : splitAux acc false (c :: (b' ++ rest)) =
        splitAux (c :: acc) false (b' ++ rest) := by
      simp [splitAux, hcr, hc]
    rw [hstep, ih (fun x hx => h x (List.mem_cons_of_mem _ hx)) (c :: acc) rest]
    simp

theorem splitAux_cr : ∀ (rest acc : List Char), rest.head? ≠ some '\n' →
    splitAux acc true rest = (acc.reverse ++ ['\r']) :: splitAux [] false rest := by
  intro rest acc h
  cases rest with
  | nil => simp [splitAux]
  | cons c r =>
    have h1 : ¬(c = '\n') := fun hh => h (by simp [hh])
    by_cases h2 : c = '\r'
    · subst h2
      simp [splitAux, if_neg h1]
    · by_cases h3 : isLB c = true
      · simp [splitAux, if_neg h1, if_neg h2, h3]
      · simp [splitAux, if_neg h1, if_neg h2, h3]

theorem splitAux_term : ∀ (t rest acc : List Char), Terminator t →
    (t = ['\r'] → rest.head? ≠ some '\n') →
    splitAux acc false (t ++ rest) = (acc.reverse ++ t) :: splitAux [] false rest := by
  rintro t rest acc (rfl | ⟨c, hc, rfl⟩) hcr
  · simp [splitAux]
  · by_cases h2 : c = '\r'
    · subst h2
      rw [List.singleton_append]
      have hstep : splitAux acc false ('\r' :: rest) = splitAux acc true rest := by
        simp [splitAux]
      rw [hstep]
      exact splitAux_cr rest acc (hcr rfl)
    · rw [List.singleton_append]
      simp [splitAux, if_neg h2, hc]

theorem WF_join : ∀ (ls : List (List Char)), WF ls →
    splitAux [] false ls.flatten = ls := by
  intro ls
  induction ls with
  | nil => intro h; simp [splitAux]
  | cons l T ih =>
    intro h
    cases T with
    | cons l₂ T' =>
      obtain ⟨⟨b, t, rfl, hb, ht⟩, hchain, hrest⟩ := h
      have hcond : t = ['\r'] → ((l₂ :: T').flatten).head? ≠ some '\n' := by
        intro hte hhead
        apply hchain
        constructor
        · subst hte
          rw [List.getLast?_concat]
        · have hl₂ : l₂ ≠ [] := lastline_ne_nil (WF_head hrest)
          cases l₂ with
          | nil => exact absurd rfl hl₂
          | cons d r =>
            rw [List.flatten_cons, List.cons_append, List.head?_cons] at hhead
            rw [List.head?_cons]
            exact hhead
      rw [List.flatten_cons, List.append_assoc, splitAux_body b hb [] _,
        List.append_nil, splitAux_term t (l₂ :: T').flatten b.reverse ht hcond,
        List.reverse_reverse, ih hrest]
    | nil =>
      obtain ⟨b, t, rfl, hb, ht⟩ | ⟨hnolb, hne⟩ := (h : LastLine l)
      · have hcond : t = ['\r'] → (([] : List (List Char)).flatten).head? ≠ some '\n' := by
          intro _ hhead
          simp at hhead
        rw [List.flatten_cons, List.flatten_nil, List.append_nil,
          show b ++ t = b ++ (t ++ ([] : List Char)) by simp,
          splitAux_body b hb [] _, List.append_nil]
        have := splitAux_term t [] b.reverse ht (by intro _ hh; simp at hh)
        rw [this, List.reverse_reverse]
        simp [splitAux]
      · have hbody := splitAux_body l hnolb [] []
        simp only [List.append_nil] at hbody
        rw [List.flatten_cons, List.flatten_nil, List.append_nil, hbody]
        have hrev : ¬(l.reverse.isEmpty = true) := by
          simp only [List.isEmpty_iff, List.reverse_eq_nil_iff]
          exact hne
        simp [splitAux, hrev]

/-! ### Scan-loop structure -/

theorem rwLine_of_none {line : List Char} (h : lineMatch (rstripNl line) = none) :
    rwLine line = line := by
  simp [rwLine, h]

theorem rwLine_of_some {line rhs : List Char} (h : lineMatch (rstripNl line) = some rhs) :
    rwLine line = line.takeWhile isSpace ++ ("this = ".toList ++ (rhs ++ ['\n'])) := by
  simp [rwLine, h]

theorem scanStep_fst (idx : Nat) (line : List Char) : (scanStep idx line).1 = rwLine line := by
  cases h : lineMatch (rstripNl line) with
  | none => simp [scanStep, rwLine, h]
  | some rhs => simp [scanStep, h]

theorem scanLines_fst : ∀ (ls : List (List Char)) (k : Nat),
    (scanLines k ls).1 = ls.map rwLine := by
  intro ls
  induction ls with
  | nil => intro k; rfl
  | cons l T ih =>
    intro k
    simp only [scanLines, List.map_cons, scanStep_fst]
    rw [ih (k + 1)]

theorem scanLines_nomatch : ∀ (ls : List (List Char)) (k : Nat),
    (∀ l ∈ ls, lineMatch (rstripNl l) = none) → (scanLines k ls).2 = [] := by
  intro ls
  induction ls with
  | nil => intro k h; rfl
  | cons l T ih =>
    intro k h
    have h1 : lineMatch (rstripNl l) = none := h l (List.mem_cons_self _ _)
    simp only [scanLines]
    rw [show (scanStep k l).2 = none by simp [scanStep, h1]]
    exact ih (k + 1) (fun x hx => h x (List.mem_cons_of_mem _ hx))

/-! ### A rewritten line never re-matches, and keeps the line shape -/

theorem rstrip_rw {indent rhs : List Char} (hne : rhs ≠ [])
    (hns : rhs.all (fun c => !(isSpace c)) = true) :
    rstripNl (indent ++ ("this = ".toList ++ (rhs ++ ['\n']))) =
      indent ++ ("this = ".toList ++ rhs) := by
  rw [show indent ++ ("this = ".toList ++ (rhs ++ ['\n'])) =
      (indent ++ ("this = ".toList ++ rhs)) ++ ['\n'] by simp, rstrip_append_nl]
  cases hr : rhs.reverse with
  | nil => exact absurd (by simpa using congrArg List.reverse hr) hne
  | cons c cs =>
    have hcmem : c ∈ rhs := List.mem_reverse.mp (by rw [hr]; exact List.mem_cons_self _ _)
    have hcs : isSpace c = false := by
      simpa using List.all_eq_true.mp hns c hcmem
    have hcne : (c == '\n') = false := by
      by_cases hcc : c = '\n'
      · subst hcc; exact absurd hcs (by decide)
      · simp [hcc]
    apply rstrip_eq_self (c := c) _ hcne
    simp [List.reverse_append, hr]

theorem rw_no_rematch {indent rhs : List Char} (hind : indent.all isSpace = true)
    (hne : rhs ≠ []) (hns : rhs.all (fun c => !(isSpace c)) = true) :
    lineMatch (rstripNl (indent ++ ("this = ".toList ++ (rhs ++ ['\n'])))) = none := by
  rw [rstrip_rw hne hns]
  have hdw : (indent ++ ("this = ".toList ++ rhs)).dropWhile isSpace =
      't' :: ("his = ".toList ++ rhs) := by
    rw [dropWhile_append_all hind]
    show List.dropWhile isSpace ('t' :: ("his = ".toList ++ rhs)) = _
    rw [List.dropWhile_cons, if_neg (by decide)]
  have hdci : dropCI ("ps-t".toList) ('t' :: ("his = ".toList ++ rhs)) = none := by
    simp [dropCI, show ¬(lowerChar 'p' = lowerChar 't') by decide]
  unfold lineMatch
  rw [hdw, hdci]

theorem rwLine_nomatch (l : List Char) : lineMatch (rstripNl (rwLine l)) = none := by
  cases h : lineMatch (rstripNl l) with
  | none => rw [rwLine_of_none h]; exact h
  | some rhs =>
    obtain ⟨hne, hns, -, -⟩ := lineMatch_some_facts h
    rw [rwLine_of_some h]
    exact rw_no_rematch (takeWhile_all _ _) hne hns

theorem rw_TermLine {line rhs : List Char} (hm : lineMatch (rstripNl line) = some rhs)
    (hl : LastLine line) :
    TermLine (rwLine line) ∧ (rwLine line).getLast? = some '\n' ∧
      (rwLine line).head? ≠ some '\n' := by
  obtain ⟨hne, hns, -, -⟩ := lineMatch_some_facts hm
  have hind := indent_noLB hm hl
  rw [rwLine_of_some hm]
  refine ⟨⟨line.takeWhile isSpace ++ ("this = ".toList ++ rhs), ['\n'], by simp, ?_,
    Or.inr ⟨'\n', by decide, rfl⟩⟩, ?_, ?_⟩
  · intro x hx
    rcases List.mem_append.mp hx with hx | hx
    · exact hind x hx
    · rcases List.mem_append.mp hx with hx | hx
      · exact (by decide : ∀ y ∈ ("this = ".toList), isLB y = false) x hx
      · exact isLB_false_of_not_space (by simpa using List.all_eq_true.mp hns x hx)
  · rw [show line.takeWhile isSpace ++ ("this = ".toList ++ (rhs ++ ['\n'])) =
        (line.takeWhile isSpace ++ ("this = ".toList ++ rhs)) ++ ['\n'] by simp]
    exact List.getLast?_concat _
  · cases hi : line.takeWhile isSpace with
    | nil => simp
    | cons a as =>
      have ha : isLB a = false := hind a (by rw [hi]; exact List.mem_cons_self _ _)
      simp only [List.cons_append, List.head?_cons, ne_eq, Option.some.injEq]
      intro hcontra
      rw [hcontra] at ha
      exact absurd ha (by decide)

/-- A line of a well-formed keepends list keeps a well-formed shape after the
rewrite. -/
theorem rwLine_cases (l : List Char) (hl : LastLine l) :
    (rwLine l = l) ∨
    (TermLine (rwLine l) ∧ (rwLine l).getLast? = some '\n' ∧
      (rwLine l).head? ≠ some '\n') := by
  cases h : lineMatch (rstripNl l) with
  | none => exact Or.inl (rwLine_of_none h)
  | some rhs => exact Or.inr (rw_TermLine h hl)

theorem map_rw_WF : ∀ (ls : List (List Char)), WF ls → WF (List.map rwLine ls) := by
  intro ls
  induction ls with
  | nil => intro h; trivial
  | cons l T ih =>
    intro h
    cases T with
    | nil =>
      rcases rwLine_cases l (h : LastLine l) with heq | ⟨ht, -, -⟩
      · show LastLine (rwLine l)
        rw [heq]; exact h
      · exact Or.inl ht
    | cons l₂ T' =>
      obtain ⟨hterm, hchain, hrest⟩ := h
      have h₁ : TermLine (rwLine l) := by
        rcases rwLine_cases l (Or.inl hterm) with heq | ⟨ht, -, -⟩
        · rw [heq]; exact hterm
        · exact ht
      refine ⟨h₁, ?_, by simpa using ih hrest⟩
      rcases rwLine_cases l (Or.inl hterm) with heq | ⟨-, hlast, -⟩
      · rw [heq]
        rcases rwLine_cases l₂ (WF_head hrest) with heq₂ | ⟨-, -, hhead₂⟩
        · rw [heq₂]; exact hchain
        · rintro ⟨-, hcontra⟩
          exact hhead₂ hcontra
      · rintro ⟨hcontra, -⟩
        rw [hlast] at hcontra
        exact absurd (Option.some.injEq .. |>.mp hcontra) (by decide)

/-! ### Idempotence core -/

theorem rescan_empty (content : List Char) :
    (scanLines 1 (splitlinesKeepends
      (((scanLines 1 (splitlinesKeepends content)).1).flatten))).2 = [] := by
  have hWF : WF (splitlinesKeepends content) :=
    splitAux_WF content [] false (by simp)
  rw [scanLines_fst, splitlinesKeepends, WF_join _ (map_rw_WF _ hWF)]
  apply scanLines_nomatch
  intro l hl
  obtain ⟨x, -, rfl⟩ := List.mem_map.mp hl
  exact rwLine_nomatch x

/-! ### `smart_replace` outcome characterizations -/

theorem disabled_guard_true {content : List Char} {fl : Flags}
    (hd : (containsSub ("DISABLED".toList) content && !fl.process_disabled) = true) :
    containsSub ['D', 'I', 'S', 'A', 'B', 'L', 'E', 'D'] content = true ∧
      fl.process_disabled = false := by
  constructor
  · exact (Bool.and_eq_true .. |>.mp hd).1
  · simpa using (Bool.and_eq_true .. |>.mp hd).2

theorem disabled_guard_false {content : List Char} {fl : Flags}
    (hd : (containsSub ("DISABLED".toList) content && !fl.process_disabled) = false) :
    ¬(containsSub ['D', 'I', 'S', 'A', 'B', 'L', 'E', 'D'] content = true ∧
      fl.process_disabled = false) := by
  rintro ⟨x1, x2⟩
  rw [show containsSub ("DISABLED".toList) content =
      containsSub ['D', 'I', 'S', 'A', 'B', 'L', 'E', 'D'] content from rfl, x1, x2] at hd
  simp at hd

theorem empty_guard_true {α : Type} {l : List α} (he : l.isEmpty = true) : l = [] := by
  simpa [List.isEmpty_iff] using he

theorem empty_guard_false {α : Type} {l : List α} (he : l.isEmpty = false) : ¬(l = []) := by
  intro x
  rw [x] at he
  simp at he

theorem smart_replace_read_err (io : IOOracle) {content : List Char}
    {prior : Option (List Char)} {fl : Flags} (h : io.readErr = true) :
    smart_replace io content prior fl = ⟨false, [], content, prior, true⟩ := by
  simp [smart_replace, smartReplaceBody, h]

theorem smart_replace_disabled {io : IOOracle} {content : List Char}
    {prior : Option (List Char)} {fl : Flags} (hr : io.readErr = false)
    (hd : (containsSub ("DISABLED".toList) content && !fl.process_disabled) = true) :
    smart_replace io content prior fl = ⟨false, [], content, prior, false⟩ := by
  simp [smart_replace, smartReplaceBody, hr, (disabled_guard_true hd).1,
    (disabled_guard_true hd).2]

theorem smart_replace_nomatch {io : IOOracle} {content : List Char}
    {prior : Option (List Char)} {fl : Flags} (hr : io.readErr = false)
    (hm : ((scanLines 1 (splitlinesKeepends content)).2).isEmpty = true) :
    smart_replace io content prior fl = ⟨false, [], content, prior, false⟩ := by
  by_cases hd : (containsSub ("DISABLED".toList) content && !fl.process_disabled) = true
  · exact smart_replace_disabled hr hd
  · simp [smart_replace, smartReplaceBody, hr,
      disabled_guard_false (Bool.not_eq_true .. |>.mp hd), empty_guard_true hm]

theorem smart_replace_apply_eq {content : List Char} {prior : Option (List Char)}
    {fl : Flags} (ha : fl.apply_changes = true)
    (hd : (containsSub ("DISABLED".toList) content && !fl.process_disabled) = false)
    (he : ((scanLines 1 (splitlinesKeepends content)).2).isEmpty = false) :
    smart_replace noErr content prior fl =
      ⟨true, (scanLines 1 (splitlinesKeepends content)).2,
        ((scanLines 1 (splitlinesKeepends content)).1).flatten,
        if fl.make_backup = true then some content else prior, false⟩ := by
  cases hb : fl.make_backup <;>
    simp [smart_replace, smartReplaceBody, noErr, disabled_guard_false hd,
      empty_guard_false he, ha, hb]

theorem smart_replace_scan_only {io : IOOracle} {content : List Char}
    {prior : Option (List Char)} {fl : Flags} (hr : io.readErr = false)
    (ha : fl.apply_changes = false)
    (hd : (containsSub ("DISABLED".toList) content && !fl.process_disabled) = false)
    (he : ((scanLines 1 (splitlinesKeepends content)).2).isEmpty = false) :
    smart_replace io content prior fl =
      ⟨true, (scanLines 1 (splitlinesKeepends content)).2, content, prior, false⟩ := by
  simp [smart_replace, smartReplaceBody, hr, disabled_guard_false hd,
    empty_guard_false he, ha]

theorem smart_replace_no_apply {io : IOOracle} {content : List Char}
    {prior : Option (List Char)} {fl : Flags} (ha : fl.apply_changes = false) :
    (smart_replace io content prior fl).fileContent = content ∧
    (smart_replace io content prior fl).backupFile = prior := by
  by_cases h1 : io.readErr = true
  · rw [smart_replace_read_err io h1]; exact ⟨rfl, rfl⟩
  · have hr : io.readErr = false := Bool.not_eq_true .. |>.mp h1
    by_cases hd : (containsSub ("DISABLED".toList) content && !fl.process_disabled) = true
    · rw [smart_replace_disabled hr hd]; exact ⟨rfl, rfl⟩
    · by_cases he : ((scanLines 1 (splitlinesKeepends content)).2).isEmpty = true
      · rw [smart_replace_nomatch hr he]; exact ⟨rfl, rfl⟩
      · rw [smart_replace_scan_only hr ha (Bool.not_eq_true .. |>.mp hd)
          (Bool.not_eq_true .. |>.mp he)]
        exact ⟨rfl, rfl⟩

theorem smart_replace_changed_inv {io : IOOracle} {content : List Char}
    {prior : Option (List Char)} {fl : Flags}
    (hc : (smart_replace io content prior fl).changed = true) :
    io.readErr = false ∧
    (containsSub ("DISABLED".toList) content && !fl.process_disabled) = false ∧
    ((scanLines 1 (splitlinesKeepends content)).2).isEmpty = false := by
  have h1 : io.readErr = false := by
    cases hio : io.readErr
    · rfl
    · rw [smart_replace_read_err io hio] at hc
      exact absurd hc (by simp)
  refine ⟨h1, ?_, ?_⟩
  · cases hd : (containsSub ("DISABLED".toList) content && !fl.process_disabled)
    · rfl
    · rw [smart_replace_disabled h1 hd] at hc
      exact absurd hc (by simp)
  · cases he : ((scanLines 1 (splitlinesKeepends content)).2).isEmpty
    · rfl
    · rw [smart_replace_nomatch h1 he] at hc
      exact absurd hc (by simp)

theorem smart_replace_backup_err {w : Bool} {content : List Char}
    {prior : Option (List Char)} {fl : Flags}
    (ha : fl.apply_changes = true) (hb : fl.make_backup = true)
    (hd : (containsSub ("DISABLED".toList) content && !fl.process_disabled) = false)
    (he : ((scanLines 1 (splitlinesKeepends content)).2).isEmpty = false) :
    smart_replace ⟨false, true, w⟩ content prior fl =
      ⟨false, [], content, prior, true⟩ := by
  simp [smart_replace, smartReplaceBody, disabled_guard_false hd,
    empty_guard_false he, ha, hb]

theorem smart_replace_write_err {content : List Char} {prior : Option (List Char)}
    {fl : Flags}
    (ha : fl.apply_changes = true) (hb : fl.make_backup = true)
    (hd : (containsSub ("DISABLED".toList) content && !fl.process_disabled) = false)
    (he : ((scanLines 1 (splitlinesKeepends content)).2).isEmpty = false) :
    smart_replace ⟨false, false, true⟩ content prior fl =
      ⟨false, [], content, some content, true⟩ := by
  simp [smart_replace, smartReplaceBody, disabled_guard_false hd,
    empty_guard_false he, ha, hb]

theorem smart_replace_write_err_nb {content : List Char} {prior : Option (List Char)}
    {fl : Flags} {be : Bool}
    (ha : fl.apply_changes = true) (hb : fl.make_backup = false)
    (hd : (containsSub ("DISABLED".toList) content && !fl.process_disabled) = false)
    (he : ((scanLines 1 (splitlinesKeepends content)).2).isEmpty = false) :
    smart_replace ⟨false, be, true⟩ content prior fl =
      ⟨false, [], content, prior, true⟩ := by
  simp [smart_replace, smartReplaceBody, disabled_guard_false hd,
    empty_guard_false he, ha, hb]


/-! ## Claim theorems -/

/-- C1: every line matching the ps-tN pattern is rewritten to
`<indent> ++ "this = " ++ <rhs> ++ "\n"`, where the indent is the line's
leading whitespace and the captured right-hand side appears byte-for-byte
(it is a contiguous substring of the stripped line, followed only by
whitespace); in particular the two example lines of the spec rewrite as
stated. -/
theorem C1_rewrite_shape :
    (∀ (idx : Nat) (line rhs : List Char), lineMatch (rstripNl line) = some rhs →
      (scanStep idx line).1 =
        line.takeWhile isSpace ++ ("this = ".toList ++ (rhs ++ ['\n'])) ∧
      ∃ pre suf, rstripNl line = pre ++ (rhs ++ suf) ∧ suf.all isSpace = true) ∧
    rwLine ("  ps-t0 = ResourceFaceDiffuse.normal".toList) =
      ("  this = ResourceFaceDiffuse.normal\n".toList) ∧
    lineMatch ("ps-t3=ResourceSomeFaceHeadNormalMap.1024".toList) =
      some ("ResourceSomeFaceHeadNormalMap.1024".toList) ∧
    rwLine ("ps-t3=ResourceSomeFaceHeadNormalMap.1024".toList) =
      ("this = ResourceSomeFaceHeadNormalMap.1024\n".toList) := by
  refine ⟨?_, by decide, by decide, by decide⟩
  intro idx line rhs h
  refine ⟨?_, ?_⟩
  · rw [scanStep_fst, rwLine_of_some h]
  · obtain ⟨-, -, -, pre, suf, hdec, hsuf⟩ := lineMatch_some_facts h
    exact ⟨pre, suf, hdec, hsuf⟩

/-- Witness for C1 at the spec's first example line. -/
theorem C1_rewrite_shape_witness :
    (scanStep 1 ("  ps-t0 = ResourceFaceDiffuse.normal".toList)).1 =
      ("  this = ResourceFaceDiffuse.normal\n".toList) := by
  have h := (C1_rewrite_shape.1 1 ("  ps-t0 = ResourceFaceDiffuse.normal".toList)
    ("ResourceFaceDiffuse.normal".toList) (by decide)).1
  exact h.trans (by decide)

/-- C2: after an apply run of `smart_replace` with at least one match, running
`smart_replace` again on the written file content yields `changed = False`
with an empty match list, for any flags and any I/O outcome of the second
run. -/
theorem C2_idempotent :
    ∀ (content : List Char) (prior : Option (List Char)) (fl : Flags),
      fl.apply_changes = true →
      (smart_replace noErr content prior fl).changed = true →
      ∀ (io₂ : IOOracle) (prior₂ : Option (List Char)) (fl₂ : Flags),
        (smart_replace io₂ (smart_replace noErr content prior fl).fileContent
          prior₂ fl₂).changed = false ∧
        (smart_replace io₂ (smart_replace noErr content prior fl).fileContent
          prior₂ fl₂).changed_lines = [] := by
  intro content prior fl ha hc io₂ prior₂ fl₂
  obtain ⟨-, hd, he⟩ := smart_replace_changed_inv hc
  have hfc : (smart_replace noErr content prior fl).fileContent =
      ((scanLines 1 (splitlinesKeepends content)).1).flatten := by
    rw [smart_replace_apply_eq ha hd he]
  rw [hfc]
  by_cases h1 : io₂.readErr = true
  · rw [smart_replace_read_err io₂ h1]
    exact ⟨rfl, rfl⟩
  · have hm2 : ((scanLines 1 (splitlinesKeepends
        (((scanLines 1 (splitlinesKeepends content)).1).flatten))).2).isEmpty = true := by
      rw [rescan_empty content]
      rfl
    rw [smart_replace_nomatch (Bool.not_eq_true .. |>.mp h1) hm2]
    exact ⟨rfl, rfl⟩

/-- Witness for C2: a one-line file that is rewritten, then rescanned. -/
theorem C2_idempotent_witness :
    (smart_replace noErr ("ps-t0 = ResourceFaceDiffuse\n".toList) none
      ⟨true, false, true, false⟩).changed = true ∧
    (smart_replace noErr
      (smart_replace noErr ("ps-t0 = ResourceFaceDiffuse\n".toList) none
        ⟨true, false, true, false⟩).fileContent none
      ⟨true, false, true, false⟩).changed = false := by
  refine ⟨by decide, ?_⟩
  exact (C2_idempotent ("ps-t0 = ResourceFaceDiffuse\n".toList) none
    ⟨true, false, true, false⟩ rfl (by decide) noErr none ⟨true, false, true, false⟩).1

/-- C3: a line that does not match is passed through unchanged (both as the
scan step and positionally in the output line list), and a file with zero
matching lines yields the unchanged outcome: `(False, [])`, the file content
untouched and no backup written. -/
theorem C3_nonmatching_frame :
    (∀ (idx : Nat) (line : List Char), lineMatch (rstripNl line) = none →
      (scanStep idx line).1 = line) ∧
    (∀ (content : List Char) (i : Nat) (line : List Char),
      (splitlinesKeepends content)[i]? = some line →
      lineMatch (rstripNl line) = none →
      ((scanLines 1 (splitlinesKeepends content)).1)[i]? = some line) ∧
    (∀ (io : IOOracle) (content : List Char) (prior : Option (List Char)) (fl : Flags),
      io.readErr = false →
      (scanLines 1 (splitlinesKeepends content)).2 = [] →
      smart_replace io content prior fl = ⟨false, [], content, prior, false⟩) := by
  refine ⟨?_, ?_, ?_⟩
  · intro idx line h
    rw [scanStep_fst, rwLine_of_none h]
  · intro content i line hget h
    rw [scanLines_fst, List.getElem?_map, hget]
    simp [rwLine_of_none h]
  · intro io content prior fl hr hm
    exact smart_replace_nomatch hr (by rw [hm]; rfl)

/-- Witness for C3: a file with no matching line is returned untouched. -/
theorem C3_nonmatching_frame_witness :
    smart_replace noErr ("[TextureOverride]\nhash = abc123\n".toList) none
      ⟨true, true, true, false⟩ =
      ⟨false, [], "[TextureOverride]\nhash = abc123\n".toList, none, false⟩ :=
  C3_nonmatching_frame.2.2 noErr ("[TextureOverride]\nhash = abc123\n".toList) none
    ⟨true, true, true, false⟩ rfl (by decide)

/-- C4: a file whose content contains `DISABLED`, processed with
`process_disabled = False`, yields `(False, [])` and is untouched — also
when the file contains lines that would otherwise match (the second conjunct
exhibits such a file with a nonempty scan-match list). -/
theorem C4_disabled_content :
    (∀ (io : IOOracle) (content : List Char) (prior : Option (List Char)) (fl : Flags),
      io.readErr = false →
      containsSub ("DISABLED".toList) content = true →
      fl.process_disabled = false →
      smart_replace io content prior fl = ⟨false, [], content, prior, false⟩) ∧
    ((scanLines 1 (splitlinesKeepends
      ("; DISABLED\nps-t0 = ResourceFaceDiffuse\n".toList))).2 ≠ []) := by
  refine ⟨?_, by decide⟩
  intro io content prior fl hr h1 h2
  exact smart_replace_disabled hr (by rw [h1, h2]; rfl)

/-- Witness for C4 on a file holding both the marker and a matching line. -/
theorem C4_disabled_content_witness :
    smart_replace noErr ("; DISABLED\nps-t0 = ResourceFaceDiffuse\n".toList) none
      ⟨true, true, true, false⟩ =
      ⟨false, [], "; DISABLED\nps-t0 = ResourceFaceDiffuse\n".toList, none, false⟩ :=
  C4_disabled_content.1 noErr ("; DISABLED\nps-t0 = ResourceFaceDiffuse\n".toList) none
    ⟨true, true, true, false⟩ rfl (by decide) rfl

/-- C5: an apply with `make_backup` on a file with a match writes the exact
pre-apply content to the backup (overwriting any prior backup content) and
replaces the file with the new line sequence; the backup is made before the
write (a failing write still leaves the fresh backup), a failing backup copy
leaves the file unwritten, and the backup path is `<stem>_backup.bak`. -/
theorem C5_backup_roundtrip :
    (∀ (content : List Char) (prior : Option (List Char)) (fl : Flags),
      fl.apply_changes = true → fl.make_backup = true →
      (smart_replace noErr content prior fl).changed = true →
      (smart_replace noErr content prior fl).backupFile = some content ∧
      (smart_replace noErr content prior fl).fileContent =
        ((scanLines 1 (splitlinesKeepends content)).1).flatten) ∧
    (∀ (content : List Char) (prior : Option (List Char)) (fl : Flags),
      fl.apply_changes = true → fl.make_backup = true →
      (smart_replace noErr content prior fl).changed = true →
      (smart_replace ⟨false, false, true⟩ content prior fl).backupFile = some content ∧
      (smart_replace ⟨false, false, true⟩ content prior fl).fileContent = content) ∧
    (∀ (content : List Char) (prior : Option (List Char)) (fl : Flags) (w : Bool),
      fl.apply_changes = true → fl.make_backup = true →
      (smart_replace noErr content prior fl).changed = true →
      (smart_replace ⟨false, true, w⟩ content prior fl).fileContent = content ∧
      (smart_replace ⟨false, true, w⟩ content prior fl).backupFile = prior) ∧
    backup_path ("face.ini".toList) = ("face_backup.bak".toList) ∧
    backup_path ("Mods/char.ini".toList) = ("Mods/char_backup.bak".toList) := by
  refine ⟨?_, ?_, ?_, by decide, by decide⟩
  · intro content prior fl ha hb hc
    obtain ⟨-, hd, he⟩ := smart_replace_changed_inv hc
    rw [smart_replace_apply_eq ha hd he]
    simp [hb]
  · intro content prior fl ha hb hc
    obtain ⟨-, hd, he⟩ := smart_replace_changed_inv hc
    rw [smart_replace_write_err ha hb hd he]
    exact ⟨rfl, rfl⟩
  · intro content prior fl w ha hb hc
    obtain ⟨-, hd, he⟩ := smart_replace_changed_inv hc
    rw [smart_replace_backup_err ha hb hd he]
    exact ⟨rfl, rfl⟩

/-- Witness for C5: the backup of a concrete apply run holds the pre-apply
content even though a prior backup existed. -/
theorem C5_backup_roundtrip_witness :
    (smart_replace noErr ("ps-t0 = ResourceFaceDiffuse\n".toList)
      (some ("old backup".toList)) ⟨true, false, true, false⟩).backupFile =
      some ("ps-t0 = ResourceFaceDiffuse\n".toList) :=
  (C5_backup_roundtrip.1 ("ps-t0 = ResourceFaceDiffuse\n".toList)
    (some ("old backup".toList)) ⟨true, false, true, false⟩ rfl rfl (by decide)).1

/-- C6: whenever `apply_changes` is false the file and the backup are left
exactly as they were — preview is pure reporting — and the `preview` flag has
no influence at all on the outcome. -/
theorem C6_preview_apply_independent :
    (∀ (io : IOOracle) (content : List Char) (prior : Option (List Char)) (fl : Flags),
      fl.apply_changes = false →
      (smart_replace io content prior fl).fileContent = content ∧
      (smart_replace io content prior fl).backupFile = prior) ∧
    (∀ (io : IOOracle) (content : List Char) (prior : Option (List Char))
      (mb pv pv' ap pd : Bool),
      smart_replace io content prior ⟨mb, pv, ap, pd⟩ =
        smart_replace io content prior ⟨mb, pv', ap, pd⟩) := by
  constructor
  · intro io content prior fl ha
    exact smart_replace_no_apply ha
  · intro io content prior mb pv pv' ap pd
    rfl

/-- Witness for C6: previewing a file with matches writes nothing. -/
theorem C6_preview_apply_independent_witness :
    (smart_replace noErr ("ps-t0 = ResourceFaceDiffuse\n".toList) none
      ⟨true, true, false, false⟩).fileContent =
      ("ps-t0 = ResourceFaceDiffuse\n".toList) :=
  (C6_preview_apply_independent.1 noErr ("ps-t0 = ResourceFaceDiffuse\n".toList) none
    ⟨true, true, false, false⟩ rfl).1

/-- C7: every exception raised inside `smart_replace` (read, backup copy or
write) is caught in the per-file handler: the call returns `(False, [])`,
sets the diagnostic, and never propagates — `smart_replace` is total on every
I/O oracle. -/
theorem C7_errors_contained :
    (∀ (io : IOOracle) (content : List Char) (prior : Option (List Char)) (fl : Flags)
      (e : List Char × Option (List Char)),
      smartReplaceBody io content prior fl = .error e →
      smart_replace io content prior fl = ⟨false, [], e.1, e.2, true⟩) ∧
    (∀ (io : IOOracle) (content : List Char) (prior : Option (List Char)) (fl : Flags),
      io.readErr = true →
      smart_replace io content prior fl = ⟨false, [], content, prior, true⟩) ∧
    (∀ (content : List Char) (prior : Option (List Char)) (fl : Flags),
      fl.apply_changes = true → fl.make_backup = true →
      (smart_replace noErr content prior fl).changed = true →
      (smart_replace ⟨false, false, true⟩ content prior fl).changed = false ∧
      (smart_replace ⟨false, false, true⟩ content prior fl).changed_lines = [] ∧
      (smart_replace ⟨false, false, true⟩ content prior fl).diagnostic = true) := by
  refine ⟨?_, ?_, ?_⟩
  · intro io content prior fl e h
    unfold smart_replace
    rw [h]
  · intro io content prior fl h
    exact smart_replace_read_err io h
  · intro content prior fl ha hb hc
    obtain ⟨-, hd, he⟩ := smart_replace_changed_inv hc
    rw [smart_replace_write_err ha hb hd he]
    exact ⟨rfl, rfl, rfl⟩

/-- Witness for C7: a read failure is reported as unchanged with a
diagnostic. -/
theorem C7_errors_contained_witness :
    smart_replace ⟨true, false, false⟩ ("ps-t0 = ResourceFaceDiffuse\n".toList) none
      ⟨true, true, true, false⟩ =
      ⟨false, [], "ps-t0 = ResourceFaceDiffuse\n".toList, none, true⟩ :=
  C7_errors_contained.2.1 ⟨true, false, false⟩
    ("ps-t0 = ResourceFaceDiffuse\n".toList) none ⟨true, true, true, false⟩ rfl

/-- C8: a file is disabled exactly when its (lowered) basename contains
`disabled` or its content contains `DISABLED`; with disabled-processing off,
any file whose filename contains `disabled` case-insensitively is excluded
from the candidate set, content notwithstanding — e.g.
`myfile_DISABLED.ini` with clean content. -/
theorem C8_disabled_filename :
    (∀ (path content : List Char),
      is_disabled_file path (.ok content) = true ↔
        (containsSub ("disabled".toList) (((splitPath path).2).map lowerChar) = true ∨
         containsSub ("DISABLED".toList) content = true)) ∧
    (∀ (entries : List FileEntry) (e : FileEntry),
      containsSub ("disabled".toList) (((splitPath e.name).2).map lowerChar) = true →
      e ∉ selectFiles false entries) ∧
    (selectFiles false
      [⟨"myfile_DISABLED.ini".toList, "ps-t0 = ResourceFaceDiffuse\n".toList⟩] = []) := by
  refine ⟨?_, ?_, by decide⟩
  · intro path content
    unfold is_disabled_file
    by_cases h : containsSub ("disabled".toList) (((splitPath path).2).map lowerChar) = true
    · simp [h]
    · simp [h]
  · intro entries e hdis hmem
    rw [selectFiles, List.mem_filter] at hmem
    obtain ⟨-, hpred⟩ := hmem
    rw [Bool.and_eq_true] at hpred
    have h2 := hpred.2
    have hd : is_disabled_file e.name (.ok e.content) = true := by
      unfold is_disabled_file
      rw [if_pos hdis]
    rw [hd] at h2
    simp at h2

/-- Witness for C8: the example file is not selected. -/
theorem C8_disabled_filename_witness :
    (⟨"myfile_DISABLED.ini".toList, "hash = abc\n".toList⟩ : FileEntry) ∉
      selectFiles false [⟨"myfile_DISABLED.ini".toList, "hash = abc\n".toList⟩] :=
  C8_disabled_filename.2.1 _ _ (by decide)

/-- C9: `should_exclude` matches exactly when some pattern, stripped of its
`*` wildcards and lowered, is a substring of the path normalized to `/`
separators and lowered; the backup pattern `*_backup.bak` is always in the
active pattern set, and the concrete examples check both a user folder
pattern and the backup pattern. -/
theorem C9_exclusion_matching :
    (∀ (path : List Char) (patterns : List (List Char)),
      should_exclude path patterns = true ↔
        ∃ p ∈ patterns,
          containsSub ((stripStar p).map lowerChar) (normalizePath path) = true) ∧
    (∀ (names : List (List Char)),
      ("*_backup.bak".toList) ∈ get_exclusion_patterns names) ∧
    (should_exclude ("C:\\Mods\\MyARMOR\\textures".toList)
      (get_exclusion_patterns [("armor".toList)]) = true) ∧
    (should_exclude ("Mods/char_backup.bak".toList) (get_exclusion_patterns []) = true) := by
  refine ⟨?_, ?_, by decide, by decide⟩
  · intro path patterns
    unfold should_exclude
    rw [List.any_eq_true]
  · intro names
    exact List.mem_cons_self _ _

/-- Witness for C9: instantiating the matching characterization on a concrete
path and pattern set. -/
theorem C9_exclusion_matching_witness :
    should_exclude ("Mods\\disabledStuff\\x".toList)
      (get_exclusion_patterns [("DisabledStuff".toList)]) = true :=
  (C9_exclusion_matching.1 ("Mods\\disabledStuff\\x".toList)
    (get_exclusion_patterns [("DisabledStuff".toList)])).mpr
    ⟨'*' :: ("DisabledStuff".toList ++ ['*']), by decide, by decide⟩

/-- C10: the rewrite is line-count preserving — the output line sequence has
exactly one line per input line of the file. -/
theorem C10_line_count :
    ∀ (content : List Char),
      ((scanLines 1 (splitlinesKeepends content)).1).length =
        (splitlinesKeepends content).length := by
  intro content
  rw [scanLines_fst, List.length_map]

end FaceFix

